import Mathlib

/-!
Verification of the Turing-machine interpreter in `turing_machine.py`.

The Python class `TuringMachine` and its `execute` method are embedded
shallowly: the machine description is a structure over lists, the
`while steps < max_steps` loop becomes the fuel-indexed function
`execLoop` (fuel = `max_steps.toNat`, which matches the Python loop
because `steps` starts at 0 and increases by exactly one per iteration),
and the two `raise ValueError` sites become `Except.error` results.
-/

/-- Embedding of the `TuringMachine` class: the fields stored by
`__init__` in `turing_machine.py`.  Python sets are modelled as lists
(membership is all the code uses); the transition dict is an association
list keyed by (state, symbol). -/
structure TuringMachine where
  states : List String
  alphabet : List Char
  tape_alphabet : List Char
  transitions : List ((String × Char) × (String × Char × Char))
  initial_state : String
  accept_states : List String
  reject_states : List String
  blank_symbol : Char
deriving DecidableEq

/-- The dict returned by `TuringMachine.execute`: keys `accepts`
(True / False / None), `final_state`, `steps`, `halted`, `tape`
(the cells joined into a string). -/
structure Outcome where
  accepts : Option Bool
  final_state : String
  steps : Nat
  halted : Bool
  tape : String
deriving DecidableEq

instance {ε α : Type} [DecidableEq ε] [DecidableEq α] :
    DecidableEq (Except ε α) := fun x y =>
  match x, y with
  | .ok a, .ok b =>
    if h : a = b then .isTrue (by rw [h]) else .isFalse (by simp [h])
  | .error a, .error b =>
    if h : a = b then .isTrue (by rw [h]) else .isFalse (by simp [h])
  | .ok _, .error _ => .isFalse (by simp)
  | .error _, .ok _ => .isFalse (by simp)

/-- The checks performed by `TuringMachine.__init__` (lines 51-58):
initial state a member of `states`, accept and reject states subsets of
`states`, and accept and reject states disjoint. -/
def validMachine (tm : TuringMachine) : Prop :=
  tm.initial_state ∈ tm.states ∧
  (∀ s ∈ tm.accept_states, s ∈ tm.states) ∧
  (∀ s ∈ tm.reject_states, s ∈ tm.states) ∧
  (∀ s ∈ tm.accept_states, s ∉ tm.reject_states)

instance (tm : TuringMachine) : Decidable (validMachine tm) := by
  unfold validMachine; infer_instance

/-- The input-validation loop of `execute` (lines 82-84): scan the
input left to right and report the first symbol outside the input
alphabet, if any. -/
def firstInvalid (alphabet : List Char) : List Char → Option Char
  | [] => none
  | c :: cs => if c ∈ alphabet then firstInvalid alphabet cs else some c

/-- The tape-extension step of `execute` (lines 107-112): if the head
has moved left of cell 0, prepend one blank and re-anchor the head to
0; then, if the head is at or past the end, append one blank. -/
def extendTape (blank : Char) (tape : List Char) (head : Int) :
    List Char × Int :=
  let p := if head < 0 then (blank :: tape, (0 : Int)) else (tape, head)
  if (p.1.length : Int) ≤ p.2 then (p.1 ++ [blank], p.2) else p

/-- Lookup in the transition dict (lines 118-130), modelled on the
association list: first entry whose key equals `(state, symbol)`. -/
def findTransition (ts : List ((String × Char) × String × Char × Char))
    (k : String × Char) : Option (String × Char × Char) :=
  (ts.find? (fun e => decide (e.1 = k))).map (fun e => e.2)

/-- The `while steps < max_steps` loop of `execute` (lines 87-154),
with the remaining budget `max_steps - steps` as structural fuel.
Each iteration: halt check, tape extension, read, transition lookup
(absent means implicit reject), write, move (any direction other than
`L` or `R` raises), state update, step increment.  Fuel 0 is the
loop exiting with the budget exhausted (lines 148-154). -/
def execLoop (tm : TuringMachine) :
    Nat → List Char → Int → String → Nat → Except String Outcome
  | 0, tape, _, state, steps =>
    .ok ⟨none, state, steps, false, String.mk tape⟩
  | fuel + 1, tape, head, state, steps =>
    if state ∈ tm.accept_states then
      .ok ⟨some true, state, steps, true, String.mk tape⟩
    else if state ∈ tm.reject_states then
      .ok ⟨some false, state, steps, true, String.mk tape⟩
    else
      let te := extendTape tm.blank_symbol tape head
      let current_symbol := te.1.getD te.2.toNat tm.blank_symbol
      match findTransition tm.transitions (state, current_symbol) with
      | none => .ok ⟨some false, state, steps, true, String.mk te.1⟩
      | some (new_state, write_symbol, direction) =>
        let tape2 := te.1.set te.2.toNat write_symbol
        if direction = 'L' then
          execLoop tm fuel tape2 (te.2 - 1) new_state (steps + 1)
        else if direction = 'R' then
          execLoop tm fuel tape2 (te.2 + 1) new_state (steps + 1)
        else
          .error ("Invalid direction: " ++ String.mk [direction])

/-- Tape initialization of `execute` (line 76): the input characters,
or a single blank cell when the input is empty. -/
def initTape (tm : TuringMachine) (input : List Char) : List Char :=
  if input.isEmpty then [tm.blank_symbol] else input

/-- `TuringMachine.execute` (lines 60-154).  `max_steps` is an integer
as in Python; the loop runs `max_steps.toNat` iterations at most,
which is exactly the behaviour of `while steps < max_steps` with
`steps` starting at 0 and incremented once per full iteration. -/
def execute (tm : TuringMachine) (input : String) (max_steps : Int) :
    Except String Outcome :=
  match firstInvalid tm.alphabet input.data with
  | some c => .error ("Invalid input symbol: " ++ String.mk [c])
  | none =>
    execLoop tm max_steps.toNat (initTape tm input.data) 0
      tm.initial_state 0

/-- The `even_ones` example machine (lines 167-182): intended to
accept strings with an even number of `1`s. -/
def even_ones : TuringMachine :=
  ⟨["q0", "q1", "accept", "reject"],
   ['0', '1'],
   ['0', '1', '_'],
   [(("q0", '0'), ("q0", '0', 'R')),
    (("q0", '1'), ("q1", '1', 'R')),
    (("q0", '_'), ("accept", '_', 'R')),
    (("q1", '0'), ("q1", '0', 'R')),
    (("q1", '1'), ("q0", '1', 'R')),
    (("q1", '_'), ("reject", '_', 'R'))],
   "q0",
   ["accept"],
   ["reject"],
   '_'⟩

/-- The `equal_zeros_ones` example machine (lines 185-215): intended
to accept strings of the form 0^n 1^n with n ≥ 1, transitions copied
verbatim from the source. -/
def equal_zeros_ones : TuringMachine :=
  ⟨["q0", "q1", "q2", "q3", "q4", "accept", "reject"],
   ['0', '1'],
   ['0', '1', 'X', 'Y', '_'],
   [(("q0", '0'), ("q1", 'X', 'R')),
    (("q0", '_'), ("reject", '_', 'R')),
    (("q0", '1'), ("reject", '1', 'R')),
    (("q1", '0'), ("q1", '0', 'R')),
    (("q1", 'Y'), ("q1", 'Y', 'R')),
    (("q1", '1'), ("q2", 'Y', 'L')),
    (("q1", '_'), ("reject", '_', 'R')),
    (("q2", '0'), ("q2", '0', 'L')),
    (("q2", 'Y'), ("q2", 'Y', 'L')),
    (("q2", 'X'), ("q0", 'X', 'R')),
    (("q0", 'X'), ("q3", 'X', 'R')),
    (("q3", 'X'), ("q3", 'X', 'R')),
    (("q3", 'Y'), ("q3", 'Y', 'R')),
    (("q3", '_'), ("accept", '_', 'R'))],
   "q0",
   ["accept"],
   ["reject"],
   '_'⟩

/-- The condition checked on each transition direction (lines 136-141):
every transition in the table moves the head `L` or `R`. -/
def goodDirs (tm : TuringMachine) : Prop :=
  ∀ e ∈ tm.transitions, e.2.2.2 = 'L' ∨ e.2.2.2 = 'R'

instance (tm : TuringMachine) : Decidable (goodDirs tm) := by
  unfold goodDirs; infer_instance

theorem firstInvalid_eq_none {alpha l : List Char}
    (h : ∀ c ∈ l, c ∈ alpha) : firstInvalid alpha l = none := by
  induction l with
  | nil => rfl
  | cons c cs ih =>
    rw [firstInvalid, if_pos (h c (List.mem_cons_self c cs))]
    exact ih fun x hx => h x (List.mem_cons_of_mem c hx)

theorem firstInvalid_spec {alpha l : List Char} {c : Char}
    (h : firstInvalid alpha l = some c) : c ∈ l ∧ c ∉ alpha := by
  induction l with
  | nil => exact absurd h (by simp [firstInvalid])
  | cons a cs ih =>
    rw [firstInvalid] at h
    by_cases ha : a ∈ alpha
    · rw [if_pos ha] at h
      rcases ih h with ⟨h1, h2⟩
      exact ⟨List.mem_cons_of_mem _ h1, h2⟩
    · rw [if_neg ha] at h
      cases h
      exact ⟨List.mem_cons_self _ _, ha⟩

theorem extendTape_neg {b : Char} {t : List Char} {h : Int} (hh : h < 0) :
    extendTape b t h = (b :: t, 0) := by
  have hlen : ¬ (((b :: t).length : Int) ≤ 0) := by
    simp only [List.length_cons]
    omega
  simp only [extendTape, if_pos hh, if_neg hlen]

theorem extendTape_ge {b : Char} {t : List Char} {h : Int}
    (h0 : 0 ≤ h) (hge : (t.length : Int) ≤ h) :
    extendTape b t h = (t ++ [b], h) := by
  have hh : ¬ h < 0 := by omega
  simp only [extendTape, if_neg hh, if_pos hge]

theorem extendTape_lt {b : Char} {t : List Char} {h : Int}
    (h0 : 0 ≤ h) (hlt : h < (t.length : Int)) :
    extendTape b t h = (t, h) := by
  have hh : ¬ h < 0 := by omega
  have hge : ¬ ((t.length : Int) ≤ h) := by omega
  simp only [extendTape, if_neg hh, if_neg hge]

theorem extendTape_length_le (b : Char) (t : List Char) (h : Int) :
    (extendTape b t h).1.length ≤ t.length + 1 := by
  rcases lt_or_le h 0 with hh | hh
  · rw [extendTape_neg hh]
    simp
  · rcases lt_or_le h (t.length : Int) with hl | hl
    · rw [extendTape_lt hh hl]
      simp
    · rw [extendTape_ge hh hl]
      simp

theorem extendTape_bounds {b : Char} {t : List Char} {h : Int}
    (h1 : -1 ≤ h) (h2 : h ≤ (t.length : Int)) :
    0 ≤ (extendTape b t h).2 ∧
    ((extendTape b t h).2).toNat < (extendTape b t h).1.length := by
  rcases lt_or_le h 0 with hh | hh
  · rw [extendTape_neg hh]
    simp
  · rcases lt_or_le h (t.length : Int) with hl | hl
    · rw [extendTape_lt hh hl]
      refine ⟨hh, ?_⟩
      show h.toNat < t.length
      omega
    · rw [extendTape_ge hh hl]
      refine ⟨hh, ?_⟩
      show h.toNat < (t ++ [b]).length
      simp only [List.length_append, List.length_cons, List.length_nil]
      omega

theorem getD_append_cons :
    ∀ (l : List Char) (c : Char) (r : List Char) (d : Char),
      (l ++ c :: r).getD l.length d = c
  | [], _, _, _ => rfl
  | a :: l, c, r, d => by simpa using getD_append_cons l c r d

theorem set_append_cons :
    ∀ (l : List Char) (c x : Char) (r : List Char),
      (l ++ c :: r).set l.length x = l ++ x :: r
  | [], _, _, _ => rfl
  | a :: l, c, x, r => by simpa using set_append_cons l c x r

theorem findTransition_mem
    {ts : List ((String × Char) × String × Char × Char)}
    {k : String × Char} {v : String × Char × Char}
    (h : findTransition ts k = some v) : (k, v) ∈ ts := by
  rw [findTransition] at h
  rcases Option.map_eq_some'.mp h with ⟨e, he, hev⟩
  have hk : e.1 = k := by
    have hp := List.find?_some he
    simpa using hp
  have hm : e ∈ ts := List.mem_of_find?_eq_some he
  have : e = (k, v) := by
    cases e
    simp_all
  rw [← this]
  exact hm

theorem execLoop_budget (tm : TuringMachine) (tape : List Char) (head : Int)
    (state : String) (steps : Nat) :
    execLoop tm 0 tape head state steps =
      .ok ⟨none, state, steps, false, String.mk tape⟩ := rfl

theorem execLoop_accept (tm : TuringMachine) (fuel : Nat) (tape : List Char)
    (head : Int) (state : String) (steps : Nat)
    (h : state ∈ tm.accept_states) :
    execLoop tm (fuel + 1) tape head state steps =
      .ok ⟨some true, state, steps, true, String.mk tape⟩ := by
  simp only [execLoop, if_pos h]

theorem execLoop_reject (tm : TuringMachine) (fuel : Nat) (tape : List Char)
    (head : Int) (state : String) (steps : Nat)
    (ha : state ∉ tm.accept_states) (hr : state ∈ tm.reject_states) :
    execLoop tm (fuel + 1) tape head state steps =
      .ok ⟨some false, state, steps, true, String.mk tape⟩ := by
  simp only [execLoop, if_neg ha, if_pos hr]

theorem execLoop_implicit_reject (tm : TuringMachine) (fuel : Nat)
    (tape : List Char) (head : Int) (state : String) (steps : Nat)
    (ha : state ∉ tm.accept_states) (hr : state ∉ tm.reject_states)
    (hlook : findTransition tm.transitions
      (state, (extendTape tm.blank_symbol tape head).1.getD
        (extendTape tm.blank_symbol tape head).2.toNat tm.blank_symbol) =
      none) :
    execLoop tm (fuel + 1) tape head state steps =
      .ok ⟨some false, state, steps, true,
        String.mk (extendTape tm.blank_symbol tape head).1⟩ := by
  simp only [execLoop, if_neg ha, if_neg hr]
  rw [hlook]

theorem execLoop_stepL (tm : TuringMachine) (fuel : Nat) (tape : List Char)
    (head : Int) (state : String) (steps : Nat) (ns : String) (ws : Char)
    (ha : state ∉ tm.accept_states) (hr : state ∉ tm.reject_states)
    (hlook : findTransition tm.transitions
      (state, (extendTape tm.blank_symbol tape head).1.getD
        (extendTape tm.blank_symbol tape head).2.toNat tm.blank_symbol) =
      some (ns, ws, 'L')) :
    execLoop tm (fuel + 1) tape head state steps =
      execLoop tm fuel
        ((extendTape tm.blank_symbol tape head).1.set
          (extendTape tm.blank_symbol tape head).2.toNat ws)
        ((extendTape tm.blank_symbol tape head).2 - 1) ns (steps + 1) := by
  simp only [execLoop, if_neg ha, if_neg hr]
  rw [hlook]
  simp

theorem execLoop_stepR (tm : TuringMachine) (fuel : Nat) (tape : List Char)
    (head : Int) (state : String) (steps : Nat) (ns : String) (ws : Char)
    (ha : state ∉ tm.accept_states) (hr : state ∉ tm.reject_states)
    (hlook : findTransition tm.transitions
      (state, (extendTape tm.blank_symbol tape head).1.getD
        (extendTape tm.blank_symbol tape head).2.toNat tm.blank_symbol) =
      some (ns, ws, 'R')) :
    execLoop tm (fuel + 1) tape head state steps =
      execLoop tm fuel
        ((extendTape tm.blank_symbol tape head).1.set
          (extendTape tm.blank_symbol tape head).2.toNat ws)
        ((extendTape tm.blank_symbol tape head).2 + 1) ns (steps + 1) := by
  simp only [execLoop, if_neg ha, if_neg hr]
  rw [hlook]
  simp

theorem execLoop_bad_direction (tm : TuringMachine) (fuel : Nat)
    (tape : List Char) (head : Int) (state : String) (steps : Nat)
    (ns : String) (ws : Char) (d : Char)
    (ha : state ∉ tm.accept_states) (hr : state ∉ tm.reject_states)
    (hlook : findTransition tm.transitions
      (state, (extendTape tm.blank_symbol tape head).1.getD
        (extendTape tm.blank_symbol tape head).2.toNat tm.blank_symbol) =
      some (ns, ws, d))
    (hL : d ≠ 'L') (hR : d ≠ 'R') :
    execLoop tm (fuel + 1) tape head state steps =
      .error ("Invalid direction: " ++ String.mk [d]) := by
  simp only [execLoop, if_neg ha, if_neg hr]
  rw [hlook]
  simp [hL, hR]

theorem execute_eq_loop {tm : TuringMachine} {input : String} (ms : Int)
    (h : firstInvalid tm.alphabet input.data = none) :
    execute tm input ms =
      execLoop tm ms.toNat (initTape tm input.data) 0 tm.initial_state 0 := by
  simp only [execute]
  rw [h]

theorem execute_eq_error {tm : TuringMachine} {input : String} (ms : Int)
    {c : Char} (h : firstInvalid tm.alphabet input.data = some c) :
    execute tm input ms =
      .error ("Invalid input symbol: " ++ String.mk [c]) := by
  simp only [execute]
  rw [h]

theorem execLoop_ok_spec (tm : TuringMachine) :
    ∀ (fuel : Nat) (tape : List Char) (head : Int) (state : String)
      (steps : Nat) (r : Outcome),
      execLoop tm fuel tape head state steps = .ok r →
      steps ≤ r.steps ∧ r.steps ≤ steps + fuel ∧
      r.halted = r.accepts.isSome ∧
      (r.accepts = none → r.steps = steps + fuel ∧ r.halted = false) := by
  intro fuel
  induction fuel with
  | zero =>
    intro tape head state steps r h
    rw [execLoop_budget] at h
    cases h
    refine ⟨le_refl _, le_refl _, rfl, fun _ => ⟨rfl, rfl⟩⟩
  | succ n ih =>
    intro tape head state steps r h
    by_cases hacc : state ∈ tm.accept_states
    · rw [execLoop_accept tm n tape head state steps hacc] at h
      cases h
      exact ⟨le_refl _, Nat.le_add_right _ _, rfl, by simp⟩
    by_cases hrej : state ∈ tm.reject_states
    · rw [execLoop_reject tm n tape head state steps hacc hrej] at h
      cases h
      exact ⟨le_refl _, Nat.le_add_right _ _, rfl, by simp⟩
    cases hfind : findTransition tm.transitions (state,
        (extendTape tm.blank_symbol tape head).1.getD
          (extendTape tm.blank_symbol tape head).2.toNat tm.blank_symbol) with
    | none =>
      rw [execLoop_implicit_reject tm n tape head state steps hacc hrej hfind]
        at h
      cases h
      exact ⟨le_refl _, Nat.le_add_right _ _, rfl, by simp⟩
    | some v =>
      obtain ⟨ns, ws, d⟩ := v
      by_cases hL : d = 'L'
      · subst hL
        rw [execLoop_stepL tm n tape head state steps ns ws hacc hrej hfind]
          at h
        obtain ⟨h1, h2, h3, h4⟩ := ih _ _ _ _ _ h
        refine ⟨by omega, by omega, h3, fun hn => ?_⟩
        obtain ⟨h5, h6⟩ := h4 hn
        exact ⟨by omega, h6⟩
      by_cases hR : d = 'R'
      · subst hR
        rw [execLoop_stepR tm n tape head state steps ns ws hacc hrej hfind]
          at h
        obtain ⟨h1, h2, h3, h4⟩ := ih _ _ _ _ _ h
        refine ⟨by omega, by omega, h3, fun hn => ?_⟩
        obtain ⟨h5, h6⟩ := h4 hn
        exact ⟨by omega, h6⟩
      rw [execLoop_bad_direction tm n tape head state steps ns ws d hacc hrej
        hfind hL hR] at h
      exact absurd h (by simp)

theorem execLoop_isOk (tm : TuringMachine)
    (hd : goodDirs tm) :
    ∀ (fuel : Nat) (tape : List Char) (head : Int) (state : String)
      (steps : Nat),
      ∃ r, execLoop tm fuel tape head state steps = .ok r := by
  intro fuel
  induction fuel with
  | zero =>
    intro tape head state steps
    exact ⟨_, execLoop_budget tm tape head state steps⟩
  | succ n ih =>
    intro tape head state steps
    by_cases hacc : state ∈ tm.accept_states
    · exact ⟨_, execLoop_accept tm n tape head state steps hacc⟩
    by_cases hrej : state ∈ tm.reject_states
    · exact ⟨_, execLoop_reject tm n tape head state steps hacc hrej⟩
    cases hfind : findTransition tm.transitions (state,
        (extendTape tm.blank_symbol tape head).1.getD
          (extendTape tm.blank_symbol tape head).2.toNat tm.blank_symbol) with
    | none =>
      exact ⟨_, execLoop_implicit_reject tm n tape head state steps hacc hrej
        hfind⟩
    | some v =>
      obtain ⟨ns, ws, d⟩ := v
      rcases hd _ (findTransition_mem hfind) with hL | hR
      · rw [execLoop_stepL tm n tape head state steps ns ws hacc hrej
          (hL ▸ hfind)]
        exact ih _ _ _ _
      · rw [execLoop_stepR tm n tape head state steps ns ws hacc hrej
          (hR ▸ hfind)]
        exact ih _ _ _ _

/-- Instrumented copy of `execLoop` that records, at each iteration,
whether the tape read `tape[head_position]` (line 115 of the source)
is within the bounds of the extended tape.  Its control flow mirrors
`execLoop` exactly; it returns `false` as soon as an iteration would
read out of bounds. -/
def inBoundsRun (tm : TuringMachine) :
    Nat → List Char → Int → String → Bool
  | 0, _, _, _ => true
  | fuel + 1, tape, head, state =>
    if state ∈ tm.accept_states then true
    else if state ∈ tm.reject_states then true
    else
      let te := extendTape tm.blank_symbol tape head
      (decide (0 ≤ te.2) && decide (te.2.toNat < te.1.length)) &&
      (match findTransition tm.transitions
          (state, te.1.getD te.2.toNat tm.blank_symbol) with
       | none => true
       | some (ns, ws, d) =>
         if d = 'L' then
           inBoundsRun tm fuel (te.1.set te.2.toNat ws) (te.2 - 1) ns
         else if d = 'R' then
           inBoundsRun tm fuel (te.1.set te.2.toNat ws) (te.2 + 1) ns
         else true)

theorem inBoundsRun_true (tm : TuringMachine) :
    ∀ (fuel : Nat) (tape : List Char) (head : Int) (state : String),
      -1 ≤ head → head ≤ (tape.length : Int) →
      inBoundsRun tm fuel tape head state = true := by
  intro fuel
  induction fuel with
  | zero => intro tape head state _ _; rfl
  | succ n ih =>
    intro tape head state h1 h2
    simp only [inBoundsRun]
    by_cases hacc : state ∈ tm.accept_states
    · rw [if_pos hacc]
    rw [if_neg hacc]
    by_cases hrej : state ∈ tm.reject_states
    · rw [if_pos hrej]
    rw [if_neg hrej]
    obtain ⟨hb1, hb2⟩ := extendTape_bounds (b := tm.blank_symbol) h1 h2
    rw [Bool.and_eq_true, Bool.and_eq_true]
    refine ⟨⟨decide_eq_true hb1, decide_eq_true hb2⟩, ?_⟩
    cases hfind : findTransition tm.transitions (state,
        (extendTape tm.blank_symbol tape head).1.getD
          (extendTape tm.blank_symbol tape head).2.toNat
          tm.blank_symbol) with
    | none => rfl
    | some v =>
      obtain ⟨ns, ws, d⟩ := v
      dsimp only
      by_cases hL : d = 'L'
      · rw [if_pos hL]
        apply ih
        · omega
        · rw [List.length_set]
          omega
      rw [if_neg hL]
      by_cases hR : d = 'R'
      · rw [if_pos hR]
        apply ih
        · omega
        · rw [List.length_set]
          omega
      rw [if_neg hR]

/-- Encodes the live state of `even_ones` during its left-to-right
scan: `false` is `q0` (even count of `1`s so far), `true` is `q1`. -/
def qState (b : Bool) : String := if b then "q1" else "q0"

/-- Whether a list of tape symbols contains an odd number of `1`s. -/
def oddOnes : List Char → Bool
  | [] => false
  | c :: rest => if c = '1' then !(oddOnes rest) else oddOnes rest

theorem oddOnes_count (l : List Char) :
    oddOnes l = decide (l.count '1' % 2 = 1) := by
  induction l with
  | nil => rfl
  | cons c rest ih =>
    by_cases hc : c = '1'
    · subst hc
      rw [oddOnes, if_pos rfl, ih, List.count_cons_self]
      rcases Nat.mod_two_eq_zero_or_one (rest.count '1') with h | h <;>
        simp [Nat.add_mod, h]
    · rw [oddOnes, if_neg hc, ih,
        List.count_cons_of_ne (fun h => hc h.symm)]

theorem even_ones_scan :
    ∀ (suffix pre : List Char) (b : Bool) (steps fuel : Nat),
      (∀ c ∈ suffix, c = '0' ∨ c = '1') →
      suffix.length + 2 ≤ fuel →
      execLoop even_ones fuel (pre ++ suffix) (pre.length : Int)
        (qState b) steps =
      .ok ⟨some (!(b.xor (oddOnes suffix))),
           if b.xor (oddOnes suffix) then "reject" else "accept",
           steps + suffix.length + 1, true,
           String.mk (pre ++ suffix ++ ['_'])⟩ := by
  intro suffix
  induction suffix with
  | nil =>
    intro pre b steps fuel hc hf
    obtain ⟨f, rfl⟩ : ∃ f, fuel = f + 1 + 1 := ⟨fuel - 2, by omega⟩
    rw [List.append_nil]
    have hext : extendTape even_ones.blank_symbol pre (pre.length : Int) =
        (pre ++ ['_'], (pre.length : Int)) :=
      extendTape_ge (Int.natCast_nonneg _) (le_refl _)
    have hread : (extendTape even_ones.blank_symbol pre
        (pre.length : Int)).1.getD
        (extendTape even_ones.blank_symbol pre
          (pre.length : Int)).2.toNat even_ones.blank_symbol = '_' := by
      rw [hext]
      show (pre ++ ['_']).getD ((pre.length : Int)).toNat '_' = '_'
      rw [Int.toNat_natCast]
      exact getD_append_cons pre '_' [] '_'
    cases b with
    | false =>
      rw [execLoop_stepR even_ones (f + 1) pre (pre.length : Int)
        (qState false) steps "accept" '_' (by decide) (by decide)
        (by rw [hread]; decide), hext]
      dsimp only
      rw [Int.toNat_natCast, set_append_cons pre '_' '_' []]
      rw [execLoop_accept even_ones f _ _ _ _ (by decide)]
      simp [oddOnes]
    | true =>
      rw [execLoop_stepR even_ones (f + 1) pre (pre.length : Int)
        (qState true) steps "reject" '_' (by decide) (by decide)
        (by rw [hread]; decide), hext]
      dsimp only
      rw [Int.toNat_natCast, set_append_cons pre '_' '_' []]
      rw [execLoop_reject even_ones f _ _ _ _ (by decide) (by decide)]
      simp [oddOnes]
  | cons c rest ih =>
    intro pre b steps fuel hc hf
    obtain ⟨f, rfl⟩ : ∃ f, fuel = f + 1 :=
      ⟨fuel - 1, by omega⟩
    have hcr : ∀ x ∈ rest, x = '0' ∨ x = '1' :=
      fun x hx => hc x (List.mem_cons_of_mem c hx)
    have hfr : rest.length + 2 ≤ f := by
      simp only [List.length_cons] at hf
      omega
    have hext : extendTape even_ones.blank_symbol (pre ++ c :: rest)
        (pre.length : Int) = (pre ++ c :: rest, (pre.length : Int)) := by
      apply extendTape_lt (Int.natCast_nonneg _)
      simp only [List.length_append, List.length_cons]
      push_cast
      omega
    have hread : (extendTape even_ones.blank_symbol (pre ++ c :: rest)
        (pre.length : Int)).1.getD
        (extendTape even_ones.blank_symbol (pre ++ c :: rest)
          (pre.length : Int)).2.toNat even_ones.blank_symbol = c := by
      rw [hext]
      show (pre ++ c :: rest).getD ((pre.length : Int)).toNat '_' = c
      rw [Int.toNat_natCast]
      exact getD_append_cons pre c rest '_'
    have e1 : pre ++ c :: rest = (pre ++ [c]) ++ rest := by simp
    have e2 : (pre.length : Int) + 1 = (((pre ++ [c]).length) : Int) := by
      simp
    rcases hc c (List.mem_cons_self c rest) with rfl | rfl
    · cases b with
      | false =>
        rw [execLoop_stepR even_ones f (pre ++ '0' :: rest)
          (pre.length : Int) (qState false) steps "q0" '0' (by decide)
          (by decide) (by rw [hread]; decide), hext]
        dsimp only
        rw [Int.toNat_natCast, set_append_cons pre '0' '0' rest]
        rw [show "q0" = qState false from rfl, e1, e2,
          ih (pre ++ ['0']) false (steps + 1) f hcr hfr]
        have hsteps : steps + 1 + rest.length + 1 =
            steps + (rest.length + 1) + 1 := by omega
        simp [oddOnes, hsteps]
      | true =>
        rw [execLoop_stepR even_ones f (pre ++ '0' :: rest)
          (pre.length : Int) (qState true) steps "q1" '0' (by decide)
          (by decide) (by rw [hread]; decide), hext]
        dsimp only
        rw [Int.toNat_natCast, set_append_cons pre '0' '0' rest]
        rw [show "q1" = qState true from rfl, e1, e2,
          ih (pre ++ ['0']) true (steps + 1) f hcr hfr]
        have hsteps : steps + 1 + rest.length + 1 =
            steps + (rest.length + 1) + 1 := by omega
        simp [oddOnes, hsteps]
    · cases b with
      | false =>
        rw [execLoop_stepR even_ones f (pre ++ '1' :: rest)
          (pre.length : Int) (qState false) steps "q1" '1' (by decide)
          (by decide) (by rw [hread]; decide), hext]
        dsimp only
        rw [Int.toNat_natCast, set_append_cons pre '1' '1' rest]
        rw [show "q1" = qState true from rfl, e1, e2,
          ih (pre ++ ['1']) true (steps + 1) f hcr hfr]
        have hsteps : steps + 1 + rest.length + 1 =
            steps + (rest.length + 1) + 1 := by omega
        simp [oddOnes, hsteps]
      | true =>
        rw [execLoop_stepR even_ones f (pre ++ '1' :: rest)
          (pre.length : Int) (qState true) steps "q0" '1' (by decide)
          (by decide) (by rw [hread]; decide), hext]
        dsimp only
        rw [Int.toNat_natCast, set_append_cons pre '1' '1' rest]
        rw [show "q0" = qState false from rfl, e1, e2,
          ih (pre ++ ['1']) false (steps + 1) f hcr hfr]
        have hsteps : steps + 1 + rest.length + 1 =
            steps + (rest.length + 1) + 1 := by omega
        simp [oddOnes, hsteps]

/-- C1: the spec claims the `equal_zeros_ones` machine accepts "01"
and "0011" and rejects "0110", "001" and "10" under the default step
budget.  The transition table in the source has no entry for
`('q0', 'Y')`, so after the markers meet the machine halts with an
implicit reject; this theorem records the actual behaviour of the code
on all five scenarios (every one rejected), which contradicts the
code's own comment that the machine accepts `0^n 1^n` for `n ≥ 1`. -/
theorem equal_zeros_ones_behavior :
    execute equal_zeros_ones "01" 10000 =
      .ok ⟨some false, "q0", 3, true, "XY"⟩ ∧
    execute equal_zeros_ones "0011" 10000 =
      .ok ⟨some false, "q0", 10, true, "XXYY"⟩ ∧
    execute equal_zeros_ones "0110" 10000 =
      .ok ⟨some false, "q0", 3, true, "XY10"⟩ ∧
    execute equal_zeros_ones "001" 10000 =
      .ok ⟨some false, "reject", 8, true, "XXY_"⟩ ∧
    execute equal_zeros_ones "10" 10000 =
      .ok ⟨some false, "reject", 1, true, "10"⟩ :=
  ⟨by decide, by decide, by decide, by decide, by decide⟩

/-- C2 counterexample: the spec's parity-checker scenario list claims
`"101"` is rejected, but `"101"` contains two `1`s (an even count) and
the machine accepts it. -/
theorem even_ones_101_counterexample :
    ¬ ((execute even_ones "101" 10000).map Outcome.accepts =
        Except.ok (some false)) := by
  decide

/-- C2 (amended): the parity checker's concrete scenarios under the
default step budget, with `"101"` corrected from Reject to Accept
(its count of `1`s is even). -/
theorem even_ones_scenarios :
    execute even_ones "" 10000 =
      .ok ⟨some true, "accept", 1, true, "_"⟩ ∧
    execute even_ones "0" 10000 =
      .ok ⟨some true, "accept", 2, true, "0_"⟩ ∧
    execute even_ones "1" 10000 =
      .ok ⟨some false, "reject", 2, true, "1_"⟩ ∧
    execute even_ones "11" 10000 =
      .ok ⟨some true, "accept", 3, true, "11_"⟩ ∧
    execute even_ones "101" 10000 =
      .ok ⟨some true, "accept", 4, true, "101_"⟩ ∧
    execute even_ones "1111" 10000 =
      .ok ⟨some true, "accept", 5, true, "1111_"⟩ :=
  ⟨by decide, by decide, by decide, by decide, by decide, by decide⟩

/-- C3: the per-iteration tape extension of the main loop.  If the
head is left of the first cell, exactly one blank is prepended and
the head is re-anchored to 0; if the head is at or past the last
cell, exactly one blank is appended; otherwise the tape is unchanged;
so one iteration grows the tape by at most one cell. -/
theorem tape_extension_spec (b : Char) (t : List Char) (h : Int) :
    (h < 0 → extendTape b t h = (b :: t, 0)) ∧
    (0 ≤ h → h < (t.length : Int) → extendTape b t h = (t, h)) ∧
    (0 ≤ h → (t.length : Int) ≤ h → extendTape b t h = (t ++ [b], h)) ∧
    (extendTape b t h).1.length ≤ t.length + 1 :=
  ⟨fun hh => extendTape_neg hh,
   fun h0 hl => extendTape_lt h0 hl,
   fun h0 hg => extendTape_ge h0 hg,
   extendTape_length_le b t h⟩

/-- Witness for `tape_extension_spec` at concrete inputs: a head one
cell left of the tape, inside the tape, and at the right end. -/
theorem tape_extension_spec_witness :
    extendTape '_' ['a'] (-1) = ('_' :: ['a'], 0) ∧
    extendTape '_' ['a'] 0 = (['a'], 0) ∧
    extendTape '_' ['a'] 1 = (['a'] ++ ['_'], 1) :=
  ⟨(tape_extension_spec '_' ['a'] (-1)).1 (by decide),
   (tape_extension_spec '_' ['a'] 0).2.1 (by decide) (by decide),
   (tape_extension_spec '_' ['a'] 1).2.2.1 (by decide) (by decide)⟩

/-- C6: when the transition lookup finds no entry for the current
state and the symbol under the head, the loop halts at that step with
an implicit Reject: `accepts = some false`, the final state is the
current state, the step counter is not incremented, `halted = true`,
and the tape is exactly the extended tape of that iteration (the
write never happens). -/
theorem implicit_reject_spec (tm : TuringMachine) (fuel : Nat)
    (tape : List Char) (head : Int) (state : String) (steps : Nat)
    (ha : state ∉ tm.accept_states) (hr : state ∉ tm.reject_states)
    (hlook : findTransition tm.transitions
      (state, (extendTape tm.blank_symbol tape head).1.getD
        (extendTape tm.blank_symbol tape head).2.toNat tm.blank_symbol) =
      none) :
    execLoop tm (fuel + 1) tape head state steps =
      .ok ⟨some false, state, steps, true,
        String.mk (extendTape tm.blank_symbol tape head).1⟩ :=
  execLoop_implicit_reject tm fuel tape head state steps ha hr hlook

/-- Witness for `implicit_reject_spec`: the configuration the
`equal_zeros_ones` machine actually reaches on input "01" after three
steps, where `('q0', 'Y')` has no transition. -/
theorem implicit_reject_spec_witness :
    execLoop equal_zeros_ones (0 + 1) ['X', 'Y'] 1 "q0" 3 =
      .ok ⟨some false, "q0", 3, true,
        String.mk (extendTape equal_zeros_ones.blank_symbol
          ['X', 'Y'] 1).1⟩ :=
  implicit_reject_spec equal_zeros_ones 0 ['X', 'Y'] 1 "q0" 3
    (by decide) (by decide) (by decide)

/-- C7: if the input contains a character outside the input alphabet,
`execute` fails with the "Invalid input symbol" error naming the first
offending character, and produces no outcome record. -/
theorem invalid_input_spec (tm : TuringMachine) (input : String)
    (ms : Int) (c : Char)
    (h : firstInvalid tm.alphabet input.data = some c) :
    execute tm input ms =
      .error ("Invalid input symbol: " ++ String.mk [c]) ∧
    c ∈ input.data ∧ c ∉ tm.alphabet :=
  ⟨execute_eq_error ms h, (firstInvalid_spec h).1, (firstInvalid_spec h).2⟩

/-- Witness for `invalid_input_spec`: the parity checker run on "2"
fails with the input-validation error rather than returning Reject. -/
theorem invalid_input_spec_witness :
    execute even_ones "2" 10000 =
      .error ("Invalid input symbol: " ++ String.mk ['2']) ∧
    '2' ∈ "2".data ∧ '2' ∉ even_ones.alphabet :=
  invalid_input_spec even_ones "2" 10000 '2' (by decide)

/-- C9: if the step budget is zero or negative, the loop body never
runs, so `execute` returns Undetermined with zero steps, `halted =
false`, the initial state, and the freshly initialized tape — even if
the initial state is an accept or reject state, because the halt
check sits inside the loop. -/
theorem zero_budget_spec (tm : TuringMachine) (input : String) (ms : Int)
    (hms : ms ≤ 0) (hin : ∀ c ∈ input.data, c ∈ tm.alphabet) :
    execute tm input ms =
      .ok ⟨none, tm.initial_state, 0, false,
        String.mk (initTape tm input.data)⟩ := by
  rw [execute_eq_loop ms (firstInvalid_eq_none hin)]
  rw [show ms.toNat = 0 from by omega]
  exact execLoop_budget tm (initTape tm input.data) 0 tm.initial_state 0

/-- Witness for `zero_budget_spec`: the parity checker on "0" with a
zero budget returns Undetermined after zero steps. -/
theorem zero_budget_spec_witness :
    execute even_ones "0" 0 =
      .ok ⟨none, even_ones.initial_state, 0, false,
        String.mk (initTape even_ones "0".data)⟩ :=
  zero_budget_spec even_ones "0" 0 (by decide) (by decide)

/-- C4: a validly constructed machine whose initial state is an accept
(respectively reject) state halts instantly on any legal input:
verdict Accept (respectively Reject), zero steps, `halted = true`, and
the tape still in its initialized form.  The halt check runs before
any transition, so one unit of budget suffices (the default is
10000). -/
theorem initial_halting_state_spec (tm : TuringMachine) (input : String)
    (ms : Int) (hv : validMachine tm)
    (hin : ∀ c ∈ input.data, c ∈ tm.alphabet) (hms : 1 ≤ ms) :
    (tm.initial_state ∈ tm.accept_states →
      execute tm input ms =
        .ok ⟨some true, tm.initial_state, 0, true,
          String.mk (initTape tm input.data)⟩) ∧
    (tm.initial_state ∈ tm.reject_states →
      execute tm input ms =
        .ok ⟨some false, tm.initial_state, 0, true,
          String.mk (initTape tm input.data)⟩) := by
  have hnone := firstInvalid_eq_none hin
  obtain ⟨f, hf⟩ : ∃ f, ms.toNat = f + 1 := ⟨ms.toNat - 1, by omega⟩
  constructor
  · intro hacc
    rw [execute_eq_loop ms hnone, hf, execLoop_accept tm f _ _ _ _ hacc]
  · intro hrej
    have hacc : tm.initial_state ∉ tm.accept_states :=
      fun hmem => hv.2.2.2 tm.initial_state hmem hrej
    rw [execute_eq_loop ms hnone, hf,
      execLoop_reject tm f _ _ _ _ hacc hrej]

/-- Witness for `initial_halting_state_spec`: a one-state machine that
starts in its accept state halts at once with the tape as loaded. -/
theorem initial_halting_state_spec_witness :
    execute (⟨["s"], ['0'], ['0', '_'], [], "s", ["s"], [], '_'⟩ :
        TuringMachine) "0" 10000 =
      .ok ⟨some true, "s", 0, true,
        String.mk (initTape (⟨["s"], ['0'], ['0', '_'], [], "s", ["s"],
          [], '_'⟩ : TuringMachine) "0".data)⟩ :=
  (initial_halting_state_spec _ "0" 10000 (by decide) (by decide)
    (by decide)).1 (by decide)

/-- C5 counterexample: with a negative budget, `execute` still returns
an outcome record, but its `steps` field (0) is not ≤ `maxSteps`
(-1), so the claim as stated fails; it needs `maxSteps ≥ 0`. -/
theorem budget_invariant_counterexample :
    execute even_ones "" (-1) = .ok ⟨none, "q0", 0, false, "_"⟩ ∧
    ¬ (((0 : Nat) : Int) ≤ -1) :=
  ⟨by decide, by decide⟩

/-- C5 (amended): for every execution with a nonnegative budget that
returns an outcome record, `steps ≤ maxSteps` and
`halted = (accepts ≠ none)`; and when the verdict is Undetermined the
budget was fully used: `steps = maxSteps` and `halted = false`. -/
theorem execute_budget_invariant (tm : TuringMachine) (input : String)
    (ms : Int) (r : Outcome) (hms : 0 ≤ ms)
    (h : execute tm input ms = .ok r) :
    (r.steps : Int) ≤ ms ∧ r.halted = r.accepts.isSome ∧
    (r.accepts = none → (r.steps : Int) = ms ∧ r.halted = false) := by
  cases hfi : firstInvalid tm.alphabet input.data with
  | some c =>
    rw [execute_eq_error ms hfi] at h
    exact absurd h (by simp)
  | none =>
    rw [execute_eq_loop ms hfi] at h
    obtain ⟨h1, h2, h3, h4⟩ := execLoop_ok_spec tm ms.toNat _ _ _ _ _ h
    refine ⟨by omega, h3, fun hn => ?_⟩
    obtain ⟨h5, h6⟩ := h4 hn
    exact ⟨by omega, h6⟩

/-- Witness for `execute_budget_invariant`: the parity checker on "0"
with the default budget (its run takes 2 steps and halts). -/
theorem execute_budget_invariant_witness :
    ((2 : Nat) : Int) ≤ 10000 ∧
    true = (some true : Option Bool).isSome ∧
    ((some true : Option Bool) = none →
      ((2 : Nat) : Int) = 10000 ∧ true = false) :=
  execute_budget_invariant even_ones "0" 10000
    ⟨some true, "accept", 2, true, "0_"⟩ (by decide) (by decide)

/-- C8: for every string over {0,1}, the parity checker accepts
exactly when the count of `1` symbols is even (including zero) and
rejects otherwise.  The budget hypothesis `length + 2 ≤ maxSteps` is
what the scan needs to cross the input, read the trailing blank and
settle in the halting state. -/
theorem even_ones_parity (w : List Char)
    (hw : ∀ c ∈ w, c = '0' ∨ c = '1') (ms : Int)
    (hms : (w.length : Int) + 2 ≤ ms) :
    execute even_ones (String.mk w) ms =
      .ok ⟨some (decide (w.count '1' % 2 = 0)),
           if w.count '1' % 2 = 0 then "accept" else "reject",
           w.length + 1, true, String.mk (w ++ ['_'])⟩ := by
  have hin : ∀ c ∈ (String.mk w).data, c ∈ even_ones.alphabet := by
    intro c hc
    rcases hw c hc with rfl | rfl <;> decide
  rw [execute_eq_loop ms (firstInvalid_eq_none hin)]
  cases w with
  | nil =>
    simp only [List.length_nil, Nat.cast_zero, zero_add] at hms
    obtain ⟨f, hf⟩ : ∃ f, ms.toNat = f + 1 + 1 := ⟨ms.toNat - 2, by omega⟩
    rw [show initTape even_ones (String.mk ([] : List Char)).data = ['_']
      from rfl]
    rw [show even_ones.initial_state = "q0" from rfl, hf]
    rw [execLoop_stepR even_ones (f + 1) ['_'] 0 "q0" 0 "accept" '_'
      (by decide) (by decide) (by decide)]
    rw [execLoop_accept even_ones f _ _ _ _ (by decide)]
    decide
  | cons c rest =>
    have hfuel : (c :: rest).length + 2 ≤ ms.toNat := by
      simp only [List.length_cons] at hms ⊢
      push_cast at hms
      omega
    have hscan := even_ones_scan (c :: rest) [] false 0 ms.toNat hw hfuel
    rw [show qState false = "q0" from rfl] at hscan
    simp only [List.nil_append, List.length_nil, Nat.cast_zero] at hscan
    rw [show initTape even_ones (String.mk (c :: rest)).data = c :: rest
      from rfl]
    rw [show even_ones.initial_state = "q0" from rfl]
    rw [hscan]
    rcases Nat.mod_two_eq_zero_or_one ((c :: rest).count '1') with h | h <;>
      simp [oddOnes_count, h]

/-- Witness for `even_ones_parity`: the string "101" has two `1`s, an
even count, so the machine accepts it in four steps. -/
theorem even_ones_parity_witness :
    execute even_ones (String.mk ['1', '0', '1']) 10000 =
      .ok ⟨some (decide ((['1', '0', '1'].count '1') % 2 = 0)),
           if (['1', '0', '1'].count '1') % 2 = 0 then "accept"
           else "reject",
           ['1', '0', '1'].length + 1, true,
           String.mk (['1', '0', '1'] ++ ['_'])⟩ :=
  even_ones_parity ['1', '0', '1'] (by decide) 10000 (by decide)

/-- C10: the only two failure modes of `execute` are an input symbol
outside the input alphabet (raised before the loop) and a transition
direction other than `L`/`R` (raised at the step that uses it); with
valid input and a well-formed direction table the result is always an
outcome record; and every read of `tape[head_position]` happens in
bounds, because the per-step extension always leaves the head inside
the tape window. -/
theorem execute_safety_spec :
    (∀ (tm : TuringMachine) (input : String) (ms : Int),
      goodDirs tm → (∀ c ∈ input.data, c ∈ tm.alphabet) →
      ∃ r, execute tm input ms = .ok r) ∧
    (∀ (tm : TuringMachine) (input : String) (ms : Int) (c : Char),
      firstInvalid tm.alphabet input.data = some c →
      execute tm input ms =
        .error ("Invalid input symbol: " ++ String.mk [c])) ∧
    (∀ (tm : TuringMachine) (fuel : Nat) (tape : List Char) (head : Int)
      (state : String) (steps : Nat) (ns : String) (ws d : Char),
      state ∉ tm.accept_states → state ∉ tm.reject_states →
      findTransition tm.transitions (state,
        (extendTape tm.blank_symbol tape head).1.getD
          (extendTape tm.blank_symbol tape head).2.toNat
          tm.blank_symbol) = some (ns, ws, d) →
      d ≠ 'L' → d ≠ 'R' →
      execLoop tm (fuel + 1) tape head state steps =
        .error ("Invalid direction: " ++ String.mk [d])) ∧
    (∀ (tm : TuringMachine) (input : String) (ms : Int),
      inBoundsRun tm ms.toNat (initTape tm input.data) 0
        tm.initial_state = true) := by
  refine ⟨?_, ?_, ?_, ?_⟩
  · intro tm input ms hd hin
    rw [execute_eq_loop ms (firstInvalid_eq_none hin)]
    exact execLoop_isOk tm hd ms.toNat _ _ _ _
  · intro tm input ms c h
    exact execute_eq_error ms h
  · intro tm fuel tape head state steps ns ws d ha hr hlook hL hR
    exact execLoop_bad_direction tm fuel tape head state steps ns ws d
      ha hr hlook hL hR
  · intro tm input ms
    exact inBoundsRun_true tm ms.toNat _ _ _ (by omega)
      (Int.natCast_nonneg _)

/-- Witness for `execute_safety_spec`: the parity checker has a
well-formed direction table, so running it on the legal input "0"
produces an outcome record. -/
theorem execute_safety_spec_witness :
    ∃ r, execute even_ones "0" 10000 = .ok r :=
  execute_safety_spec.1 even_ones "0" 10000 (by decide) (by decide)
